import Mathlib

/-!
Verification development for the `beelib` HBase helpers (`src/beelib/beehbase.py`).

The core under study is the paginated range scan `get_hbase_data_batch` and the
batched writer `save_to_hbase` (plus the table-acquisition helper
`__get_h_table__`).  The embedding below is a direct shallow translation of the
Python source:

* Row keys on the scan side are modelled as lists of Unicode code points
  (`HKey := List Nat`), because the Python code compares keys as strings
  (code-point lexicographic order) and manipulates the final character with
  `ord`/`chr`.  `chr` is only defined for code points below `0x110000`
  (= 1114112); incrementing the maximal code point `0x10FFFF` raises a
  `ValueError`, which the embedding models by `incrKey` returning `none`
  (as it also does for an empty key, where `key[-1]` raises `IndexError`).
* The store is a finite list of row keys in scan (ascending) order; the
  store's `scan` primitive returns the keys inside `[row_start, row_stop)`
  in store order, at most `limit` of them.  Column data is irrelevant to
  every property studied here, so batches carry keys only.
* The `while True:` loop of `get_hbase_data_batch` is embedded as a
  fuel-indexed recursion (`scanLoop`); the driver supplies `store.length + 1`
  fuel, and exhausting the fuel is a distinguished outcome (`fuelOut`) that
  is proved unreachable.
* Python truthiness of the `limit` and `row_fields` arguments (`if limit:`,
  `if not row_fields:`) is embedded by `limTruthy` / `rfTruthy`:
  `None` and `0` (resp. `None` and `[]`) are falsy.
-/

/-- A row key: the list of Unicode code points of the Python string. -/
abbrev HKey := List Nat

/-- Code-point lexicographic `<=` on keys — Python string comparison. -/
def keyLe : HKey → HKey → Bool
  | [], _ => true
  | _ :: _, [] => false
  | a :: as, b :: bs => decide (a < b) || (a == b && keyLe as bs)

/-- Code-point lexicographic `<` on keys — Python string comparison. -/
def keyLt : HKey → HKey → Bool
  | _, [] => false
  | [], _ :: _ => true
  | a :: as, b :: bs => decide (a < b) || (a == b && keyLt as bs)

/-- `key[:-1] + chr(ord(key[-1]) + 1)`: replace the final character by its
successor.  Returns `none` when the Python expression raises: `key[-1]` on an
empty string (`IndexError`), or `chr` past `0x10FFFF` (`ValueError`). -/
def incrKey : HKey → Option HKey
  | [] => none
  | [c] => if c + 1 < 1114112 then some [c + 1] else none
  | c :: d :: rest => (incrKey (d :: rest)).map (fun t => c :: t)

/-- The inclusive `row_start` bound (`none` = absent). -/
def startOk (start : Option HKey) (k : HKey) : Bool :=
  match start with
  | none => true
  | some s => keyLe s k

/-- The exclusive `row_stop` bound (`none` = absent). -/
def stopOk (stop : Option HKey) (k : HKey) : Bool :=
  match stop with
  | none => true
  | some t => keyLt k t

/-- Membership of a key in the scanned interval: `row_start` inclusive,
`row_stop` exclusive, `none` meaning an absent bound. -/
def inRange (start stop : Option HKey) (k : HKey) : Bool :=
  startOk start k && stopOk stop k

/-- The store's `scan` primitive (external collaborator, spec section 6): the
keys of the sorted store that lie in `[start, stop)`, at most `lim` of them. -/
def scanRows (store : List HKey) (start stop : Option HKey) (lim : Nat) : List HKey :=
  (store.filter (fun k => inRange start stop k)).take lim

/-- Python truthiness of the `limit` argument: `None` and `0` are falsy. -/
def limTruthy : Option Nat → Bool
  | none => false
  | some l => decide (0 < l)

/-- One round of the scan generator, with the ghost data the specification
talks about: the `row_start` used for the round, the per-round scan size
requested from the store, and the batch of rows the round yielded. -/
structure Round where
  start : Option HKey
  requested : Nat
  data : List HKey
deriving DecidableEq, Repr

/-- How a scan run ended.  `exhausted`, `singleRow` and `limitReached` are the
normal generator completions; `charError` models the Python `ValueError` /
`IndexError` raised by the final-character increment; `fuelOut` is the
(provably unreachable) fuel exhaustion of the embedding. -/
inductive TermState where
  | exhausted
  | singleRow
  | limitReached
  | charError
  | fuelOut
deriving DecidableEq, Repr

/-- The `while True:` loop of `get_hbase_data_batch` (beehbase.py lines
120-141), fuel-indexed.  State carried between rounds: `start`
(= `row_start`), `register` (= `current_register`), `curLimit`
(= `current_limit`). -/
def scanLoop (store : List HKey) (stop : Option HKey) (bs : Nat) (limit : Option Nat) :
    Nat → Option HKey → Nat → Nat → List Round × TermState
  | 0, _, _, _ => ([], .fuelOut)
  | fuel + 1, start, register, curLimit =>
    if scanRows store start stop curLimit = [] then
      ([], .exhausted)
    else if (scanRows store start stop curLimit).length ≤ 1 then
      ([⟨start, curLimit, scanRows store start stop curLimit⟩], .singleRow)
    else if limTruthy limit &&
        decide (limit.getD 0 ≤ register + (scanRows store start stop curLimit).length) then
      ([⟨start, curLimit, scanRows store start stop curLimit⟩], .limitReached)
    else
      match incrKey ((scanRows store start stop curLimit).getLastD []) with
      | none => ([⟨start, curLimit, scanRows store start stop curLimit⟩], .charError)
      | some start1 =>
        let r := scanLoop store stop bs limit fuel (some start1)
          (register + (scanRows store start stop curLimit).length)
          (if limTruthy limit then
            min bs (limit.getD 0 - (register + (scanRows store start stop curLimit).length))
          else curLimit)
        (⟨start, curLimit, scanRows store start stop curLimit⟩ :: r.1, r.2)

/-- Bound derivation of `get_hbase_data_batch` (beehbase.py lines 108-110):
a truthy `row_prefix` overrides both caller bounds, the stop bound being the
prefix with its final character incremented.  `none` when that increment
raises. -/
def deriveBounds (row_start row_stop row_pre : Option HKey) :
    Option (Option HKey × Option HKey) :=
  match row_pre with
  | none => some (row_start, row_stop)
  | some p =>
    if p = [] then some (row_start, row_stop)
    else
      match incrKey p with
      | none => none
      | some q => some (some p, some q)

/-- `get_hbase_data_batch` (beehbase.py lines 83-141) over a fixed store:
derives the bounds, computes the initial `current_limit`
(`min(batch_size, limit)` when `limit` is truthy, else `batch_size`), and runs
the round loop.  Returns the trace of rounds and the termination state. -/
def get_hbase_data_batch (store : List HKey) (row_start row_stop row_pre : Option HKey)
    (batch_size : Nat) (limit : Option Nat) : List Round × TermState :=
  match deriveBounds row_start row_stop row_pre with
  | none => ([], .charError)
  | some (s, t) =>
    let curLimit := if limTruthy limit then min batch_size (limit.getD 0) else batch_size
    scanLoop store t batch_size limit (store.length + 1) s 0 curLimit

/-- Rows already returned before round `i`: the summed batch lengths of the
earlier rounds. -/
def rowsBefore (rounds : List Round) (i : Nat) : Nat :=
  ((rounds.take i).map (fun r => r.data.length)).sum

/-- Total number of rows yielded across all rounds. -/
def totalRows (rounds : List Round) : Nat :=
  (rounds.map (fun r => r.data.length)).sum

/-!
### The write path: `save_to_hbase` and `__get_h_table__`

Records are Python dicts: ordered association lists from field name to a
value of an arbitrary type `α`, stringified by a caller-supplied `strFn`
(Python's `str`).  `FieldSel` is the shape of the second component of a
`cf_mapping` entry: the string `"all"`, a list of field names, or anything
else (which the source rejects with
`Exception("Column mapping must be a list of fields or 'all'")`).
-/

/-- The selector in a `cf_mapping` entry: `"all"`, an explicit field list, or
any other (invalid) shape. -/
inductive FieldSel where
  | all
  | flds (l : List String)
  | invalid
deriving DecidableEq, Repr

/-- Python dict lookup on an association list (keys are unique in a dict, so
the first hit is the entry). -/
def lookupKey {β : Type} (m : List (String × β)) (k : String) : Option β :=
  (m.find? (fun p => p.1 == k)).map (fun p => p.2)

/-- Python dict assignment `m[k] = v`: overwrite in place when `k` is
present (keeping its position), else append. -/
def dictSet (m : List (String × String)) (k v : String) : List (String × String) :=
  if m.any (fun p => p.1 == k) then
    m.map (fun p => if p.1 == k then (k, v) else p)
  else m ++ [(k, v)]

/-- beehbase.py lines 71-73: `for c, v in d_.items(): values[f"{cf}:{c}"] = str(v)`. -/
def addAllFields {α : Type} (strFn : α → String) (cf : String)
    (d : List (String × α)) (vals : List (String × String)) : List (String × String) :=
  d.foldl (fun vs p => dictSet vs (cf ++ ":" ++ p.1) (strFn p.2)) vals

/-- beehbase.py lines 74-77: `for c in fields: if c in d_: values[f"{cf}:{c}"] = str(d_[c])`. -/
def addListedFields {α : Type} (strFn : α → String) (cf : String) (fs : List String)
    (d : List (String × α)) (vals : List (String × String)) : List (String × String) :=
  fs.foldl
    (fun vs c =>
      match lookupKey d c with
      | some v => dictSet vs (cf ++ ":" ++ c) (strFn v)
      | none => vs)
    vals

/-- beehbase.py lines 69-79: build the `values` dict of one record by walking
`cf_mapping` in order; an entry whose selector is neither `"all"` nor a list
raises immediately. -/
def buildValuesGo {α : Type} (strFn : α → String) (d : List (String × α))
    (vals : List (String × String)) :
    List (String × FieldSel) → Except String (List (String × String))
  | [] => .ok vals
  | (cf, .all) :: rest => buildValuesGo strFn d (addAllFields strFn cf d vals) rest
  | (cf, .flds fs) :: rest => buildValuesGo strFn d (addListedFields strFn cf fs d vals) rest
  | (_, .invalid) :: _ => .error "Column mapping must be a list of fields or \x27all\x27"

/-- The `values` dict of one record (initially empty, beehbase.py line 69). -/
def buildValues {α : Type} (strFn : α → String) (d : List (String × α))
    (cf_mapping : List (String × FieldSel)) : Except String (List (String × String)) :=
  buildValuesGo strFn d [] cf_mapping

/-- beehbase.py line 68: the explicit-mode row-key comprehension
`[str(d_.pop(f)) if f in d_ else "" for f in row_fields]` — each present field
is popped from the working copy as it is consumed; absent fields contribute an
empty segment.  Returns the segments and the record after the pops. -/
def popFields {α : Type} (strFn : α → String) (d : List (String × α)) :
    List String → List String × List (String × α)
  | [] => ([], d)
  | f :: fs =>
    match lookupKey d f with
    | some v =>
      let r := popFields strFn (d.eraseP (fun q => q.1 == f)) fs
      (strFn v :: r.1, r.2)
    | none =>
      let r := popFields strFn d fs
      ("" :: r.1, r.2)

/-- Python truthiness of the `row_fields` argument: `None` and `[]` are falsy
(`if not row_fields:` selects auto mode for both). -/
def rfTruthy : Option (List String) → Bool
  | none => false
  | some l => !l.isEmpty

/-- State of a happybase write batch (external collaborator, spec section 6):
pending mutations, the running mutation count that triggers an automatic
flush, the batches flushed to the store so far, and a ghost log of the row
keys passed to `put`, in call order. -/
structure WState where
  pending : List (String × List (String × String))
  mcount : Nat
  flushed : List (List (String × List (String × String)))
  puts : List String
deriving DecidableEq, Repr

/-- `Batch.put(row, values)`: append the mutation; when `batch_size` is truthy
and the accumulated mutation count reaches it, flush the pending batch. -/
def batchPut (bs : Nat) (st : WState) (row : String) (vals : List (String × String)) :
    WState :=
  let pending1 := st.pending ++ [(row, vals)]
  let m1 := st.mcount + vals.length
  if 0 < bs ∧ bs ≤ m1 then ⟨[], 0, st.flushed ++ [pending1], st.puts ++ [row]⟩
  else ⟨pending1, m1, st.flushed, st.puts ++ [row]⟩

/-- `Batch.send()`: flush whatever is pending (a no-op when nothing is). -/
def batchSend (st : WState) : WState :=
  if st.pending = [] then st
  else ⟨[], 0, st.flushed ++ [st.pending], st.puts⟩

/-- The record loop of `save_to_hbase` (beehbase.py lines 62-81): for each
document, copy it, derive its row key (auto mode
`f"{uid}~{row_auto}"` with the counter incremented per record, or explicit
mode popping `row_fields`), build the `values` dict, and `put` it; the raised
invalid-mapping exception aborts the loop (so `send()` is never reached);
otherwise a final `send()` flushes the remainder. -/
def saveGo {α : Type} (strFn : α → String) (cf_mapping : List (String × FieldSel))
    (row_fields : Option (List String)) (batch_size : Nat) (uid : String) :
    List (List (String × α)) → Nat → WState → WState × Option String
  | [], _, st => (batchSend st, none)
  | d :: ds, rowAuto, st =>
    let rkd :=
      if rfTruthy row_fields then
        let r := popFields strFn d (row_fields.getD [])
        (String.intercalate "~" r.1, r.2, rowAuto)
      else (uid ++ "~" ++ Nat.repr rowAuto, d, rowAuto + 1)
    match buildValues strFn rkd.2.1 cf_mapping with
    | .error m => (st, some m)
    | .ok vals =>
      saveGo strFn cf_mapping row_fields batch_size uid ds rkd.2.2
        (batchPut batch_size st rkd.1 vals)

/-- `save_to_hbase` (beehbase.py lines 42-81) from the point where the batch
is created: `uid` is the per-session `uuid.uuid4()` and the row counter starts
at 0.  Returns the final batch state (its `flushed` field being everything
that reached the store) and the raised exception message, if any. -/
def save_to_hbase {α : Type} (strFn : α → String) (documents : List (List (String × α)))
    (cf_mapping : List (String × FieldSel)) (row_fields : Option (List String))
    (batch_size : Nat) (uid : String) : WState × Option String :=
  saveGo strFn cf_mapping row_fields batch_size uid documents 0 ⟨[], 0, [], []⟩

/-!
### The write path with explicit reference semantics

To state the frame property ("the caller's records are never mutated") the
loop is re-embedded with Python's object references made explicit: a heap of
dict cells (`List` indexed by allocation order), the caller's documents given
as references into it.  `d_ = d.copy()` allocates a fresh cell holding the
same entries; each `d_.pop(f)` of the explicit-mode key derivation writes that
cell in place.  Everything else only reads.
-/

/-- Explicit-mode key derivation on the heap: each `d_.pop(f)` with `f`
present updates the cell at `idx` in place; absent fields contribute `""`. -/
def popFieldsHeap {α : Type} (strFn : α → String) (heap : List (List (String × α)))
    (idx : Nat) : List String → List String × List (List (String × α))
  | [] => ([], heap)
  | f :: fs =>
    let d := heap.getD idx []
    match lookupKey d f with
    | some v =>
      let heap1 := heap.set idx (d.eraseP (fun q => q.1 == f))
      let r := popFieldsHeap strFn heap1 idx fs
      (strFn v :: r.1, r.2)
    | none =>
      let r := popFieldsHeap strFn heap idx fs
      ("" :: r.1, r.2)

/-- The record loop of `save_to_hbase` with the heap threaded through:
documents are references into `heap`; each iteration allocates the copy
`d_`, derives the row key (mutating only the copy's cell), builds the
`values` dict from the copy, and `put`s it. -/
def saveHeapGo {α : Type} (strFn : α → String) (cf_mapping : List (String × FieldSel))
    (row_fields : Option (List String)) (batch_size : Nat) (uid : String) :
    List Nat → Nat → WState → List (List (String × α)) →
      List (List (String × α)) × WState × Option String
  | [], _, st, heap => (heap, batchSend st, none)
  | r :: rs, rowAuto, st, heap =>
    let d := heap.getD r []
    let heap1 := heap ++ [d]
    let cidx := heap.length
    let rkh :=
      if rfTruthy row_fields then
        let p := popFieldsHeap strFn heap1 cidx (row_fields.getD [])
        (String.intercalate "~" p.1, p.2, rowAuto)
      else (uid ++ "~" ++ Nat.repr rowAuto, heap1, rowAuto + 1)
    match buildValues strFn (rkh.2.1.getD cidx []) cf_mapping with
    | .error m => (rkh.2.1, st, some m)
    | .ok vals =>
      saveHeapGo strFn cf_mapping row_fields batch_size uid rs rkh.2.2
        (batchPut batch_size st rkh.1 vals) rkh.2.1

/-- `save_to_hbase` over the explicit heap: `docRefs` are the caller's
references to its records. -/
def save_to_hbase_heap {α : Type} (strFn : α → String) (heap : List (List (String × α)))
    (docRefs : List Nat) (cf_mapping : List (String × FieldSel))
    (row_fields : Option (List String)) (batch_size : Nat) (uid : String) :
    List (List (String × α)) × WState × Option String :=
  saveHeapGo strFn cf_mapping row_fields batch_size uid docRefs 0 ⟨[], 0, [], []⟩ heap

/-- A Python exception, as observed by `__get_h_table__`: the `str` of its
class and its message. -/
structure PyErr where
  cls : String
  msg : String
deriving DecidableEq, Repr

/-- The class-name string the source compares against (beehbase.py line 36). -/
def alreadyExistsCls : String := "<class \x27Hbase_thrift.AlreadyExists\x27>"

/-- `__get_h_table__` (beehbase.py lines 19-40), with the outcome of the
store's `create_table` call as input (`.ok` = created, `.error e` = the raised
exception).  The `try/except` catches every exception: `AlreadyExists` is
passed over silently, anything else is printed — and in both cases the
function falls through to `return hbase.table(table_name)`.  Result: the
returned table handle (modelled by the table name) and the list of printed
messages. -/
def get_h_table (createRes : Except PyErr Unit) (tableName : String) :
    String × List String :=
  match createRes with
  | .ok _ => (tableName, [])
  | .error e =>
    if e.cls = alreadyExistsCls then (tableName, [])
    else (tableName, [e.msg])

/-!
### Order lemmas on keys
-/

theorem keyLe_trans (a : HKey) : ∀ b c : HKey,
    keyLe a b = true → keyLe b c = true → keyLe a c = true := by
  induction a with
  | nil => intro b c _ _; rfl
  | cons x xs ih =>
    intro b c hab hbc
    cases b with
    | nil => simp [keyLe] at hab
    | cons y ys =>
      cases c with
      | nil => simp [keyLe] at hbc
      | cons z zs =>
        simp only [keyLe, Bool.or_eq_true, Bool.and_eq_true, decide_eq_true_eq,
          beq_iff_eq] at hab hbc ⊢
        rcases hab with h1 | ⟨h1, h1t⟩ <;> rcases hbc with h2 | ⟨h2, h2t⟩
        · exact Or.inl (Nat.lt_trans h1 h2)
        · exact Or.inl (h2 ▸ h1)
        · exact Or.inl (h1 ▸ h2)
        · exact Or.inr ⟨h1.trans h2, ih ys zs h1t h2t⟩

theorem keyLt_to_le (a : HKey) : ∀ b : HKey, keyLt a b = true → keyLe a b = true := by
  induction a with
  | nil => intro b _; rfl
  | cons x xs ih =>
    intro b h
    cases b with
    | nil => simp [keyLt] at h
    | cons y ys =>
      simp only [keyLt, keyLe, Bool.or_eq_true, Bool.and_eq_true, decide_eq_true_eq,
        beq_iff_eq] at h ⊢
      rcases h with h | ⟨h, ht⟩
      · exact Or.inl h
      · exact Or.inr ⟨h, ih ys ht⟩

theorem keyLt_asymm (a : HKey) : ∀ b : HKey, keyLt a b = true → keyLe b a = false := by
  induction a with
  | nil =>
    intro b h
    cases b with
    | nil => simp [keyLt] at h
    | cons y ys => rfl
  | cons x xs ih =>
    intro b h
    cases b with
    | nil => simp [keyLt] at h
    | cons y ys =>
      simp only [keyLt, Bool.or_eq_true, Bool.and_eq_true, decide_eq_true_eq,
        beq_iff_eq] at h
      simp only [keyLe, Bool.or_eq_false_iff, Bool.and_eq_false_iff, decide_eq_false_iff_not,
        beq_eq_false_iff_ne, ne_eq]
      rcases h with h | ⟨h, ht⟩
      · exact ⟨by omega, Or.inl (by omega)⟩
      · exact ⟨by omega, Or.inr (ih ys ht)⟩

/-- The final-character increment yields a strictly greater key. -/
theorem incrKey_gt : ∀ k q : HKey, incrKey k = some q → keyLt k q = true := by
  intro k
  induction k with
  | nil => intro q h; simp [incrKey] at h
  | cons c rest ih =>
    intro q h
    cases rest with
    | nil =>
      simp only [incrKey] at h
      by_cases hb : c + 1 < 1114112
      · simp [hb] at h
        subst h
        simp [keyLt]
      · simp [hb] at h
    | cons d rest2 =>
      simp only [incrKey, Option.map_eq_some'] at h
      obtain ⟨t, hinc, hq⟩ := h
      subst hq
      simp [keyLt, ih t hinc]

theorem getLastD_mem {α : Type} : ∀ (l : List α) (d : α), l ≠ [] → l.getLastD d ∈ l := by
  intro l
  induction l with
  | nil => intro d h; exact absurd rfl h
  | cons a t ih =>
    intro d _
    cases t with
    | nil => simp [List.getLastD]
    | cons b t2 =>
      rw [List.getLastD_cons]
      exact List.mem_cons_of_mem a (ih a (by simp))

theorem filterLen_mono {α : Type} (p q : α → Bool) :
    ∀ l : List α, (∀ a ∈ l, q a = true → p a = true) →
      (l.filter q).length ≤ (l.filter p).length := by
  intro l
  induction l with
  | nil => intro _; simp
  | cons a t ih =>
    intro h
    have ht := ih (fun x hx => h x (List.mem_cons_of_mem a hx))
    by_cases hq : q a = true
    · have hp := h a (List.mem_cons_self a t) hq
      simp [List.filter_cons, hq, hp]
      omega
    · simp only [List.filter_cons]
      rw [Bool.not_eq_true] at hq
      rw [hq]
      by_cases hp : p a = true
      · simp [hp]; omega
      · rw [Bool.not_eq_true] at hp; rw [hp]; exact ht

theorem filterLen_lt {α : Type} (p q : α → Bool) (l : List α)
    (himp : ∀ a ∈ l, q a = true → p a = true)
    (x : α) (hx : x ∈ l) (hpx : p x = true) (hqx : q x = false) :
    (l.filter q).length < (l.filter p).length := by
  induction l with
  | nil => exact absurd hx (List.not_mem_nil x)
  | cons a t ih =>
    have ht : ∀ b ∈ t, q b = true → p b = true :=
      fun b hb => himp b (List.mem_cons_of_mem a hb)
    rcases List.mem_cons.mp hx with rfl | hxt
    · have hmono := filterLen_mono p q t ht
      simp [List.filter_cons, hqx, hpx]
      omega
    · have hlt := ih ht hxt
      by_cases hq : q a = true
      · have hp := himp a (List.mem_cons_self a t) hq
        simp [List.filter_cons, hq, hp]
        omega
      · rw [Bool.not_eq_true] at hq
        simp only [List.filter_cons, hq]
        by_cases hp : p a = true
        · simp [hp]; omega
        · rw [Bool.not_eq_true] at hp; rw [hp]; exact hlt

/-- Advancing `row_start` past the incremented last row of a non-empty batch
strictly shrinks the set of store keys still in range. -/
theorem scan_measure_dec (store : List HKey) (start stop : Option HKey) (lim : Nat)
    (q : HKey) (hne : scanRows store start stop lim ≠ [])
    (hi : incrKey ((scanRows store start stop lim).getLastD []) = some q) :
    (store.filter (fun k => inRange (some q) stop k)).length <
      (store.filter (fun k => inRange start stop k)).length := by
  have hlast_mem : (scanRows store start stop lim).getLastD [] ∈
      store.filter (fun k => inRange start stop k) :=
    List.take_subset _ _ (getLastD_mem _ [] hne)
  have hlast_in : inRange start stop ((scanRows store start stop lim).getLastD []) = true :=
    (List.mem_filter.mp hlast_mem).2
  have hlt := incrKey_gt _ q hi
  have hqle : keyLe q ((scanRows store start stop lim).getLastD []) = false :=
    keyLt_asymm _ q hlt
  apply filterLen_lt (fun k => inRange start stop k) (fun k => inRange (some q) stop k)
    store _ ((scanRows store start stop lim).getLastD [])
    (List.mem_of_mem_filter hlast_mem) hlast_in
  · simp only [inRange, startOk, Bool.and_eq_false_iff]
    exact Or.inl hqle
  · intro k _ hk
    simp only [inRange, Bool.and_eq_true] at hk ⊢
    refine ⟨?_, hk.2⟩
    cases start with
    | none => rfl
    | some s =>
      simp only [inRange, Bool.and_eq_true, startOk] at hlast_in
      have h1 := hlast_in.1
      have h2 : keyLe ((scanRows store (some s) stop lim).getLastD []) q = true :=
        keyLt_to_le _ q hlt
      simp only [startOk] at hk ⊢
      exact keyLe_trans s _ k (keyLe_trans s _ q h1 h2) hk.1

/-!
### Structural lemmas about the scan loop
-/

/-- The first round produced by `scanLoop` (when any is produced) records the
`row_start` and requested size the loop was entered with, and the batch the
store returned for them. -/
theorem scanLoop_head (store : List HKey) (stop : Option HKey) (bs : Nat)
    (limit : Option Nat) :
    ∀ fuel start register curLimit,
      (scanLoop store stop bs limit fuel start register curLimit).1 = [] ∨
      ∃ rest, (scanLoop store stop bs limit fuel start register curLimit).1 =
        (⟨start, curLimit, scanRows store start stop curLimit⟩ : Round) :: rest := by
  intro fuel start register curLimit
  match fuel with
  | 0 => exact Or.inl rfl
  | f + 1 =>
    by_cases h1 : scanRows store start stop curLimit = []
    · exact Or.inl (by simp [scanLoop, h1])
    by_cases h2 : (scanRows store start stop curLimit).length ≤ 1
    · exact Or.inr ⟨[], by simp [scanLoop, h1, h2]⟩
    by_cases h3 : (limTruthy limit &&
        decide (limit.getD 0 ≤ register + (scanRows store start stop curLimit).length)) = true
    · exact Or.inr ⟨[], by simp [scanLoop, h1, h2, h3]⟩
    cases hm : incrKey ((scanRows store start stop curLimit).getLastD []) with
    | none =>
      exact Or.inr ⟨[], by
        simp only [scanLoop, if_neg h1, if_neg h2, hm]
        split <;> rfl⟩
    | some start1 =>
      refine Or.inr ⟨(scanLoop store stop bs limit f (some start1)
        (register + (scanRows store start stop curLimit).length)
        (if limTruthy limit then
          min bs (limit.getD 0 - (register + (scanRows store start stop curLimit).length))
        else curLimit)).1, ?_⟩
      simp only [scanLoop, if_neg h1, if_neg h2, hm]
      rw [if_neg h3]

/-- Equation lemma: empty round. -/
theorem scanLoop_succ_empty (store : List HKey) (stop : Option HKey) (bs : Nat)
    (limit : Option Nat) (f : Nat) (start : Option HKey) (register curLimit : Nat)
    (h1 : scanRows store start stop curLimit = []) :
    scanLoop store stop bs limit (f + 1) start register curLimit = ([], .exhausted) := by
  simp only [scanLoop, if_pos h1]

/-- Equation lemma: round of at most one row. -/
theorem scanLoop_succ_single (store : List HKey) (stop : Option HKey) (bs : Nat)
    (limit : Option Nat) (f : Nat) (start : Option HKey) (register curLimit : Nat)
    (h1 : ¬scanRows store start stop curLimit = [])
    (h2 : (scanRows store start stop curLimit).length ≤ 1) :
    scanLoop store stop bs limit (f + 1) start register curLimit =
      ([⟨start, curLimit, scanRows store start stop curLimit⟩], .singleRow) := by
  simp only [scanLoop, if_neg h1, if_pos h2]

/-- Equation lemma: limit reached. -/
theorem scanLoop_succ_limit (store : List HKey) (stop : Option HKey) (bs : Nat)
    (limit : Option Nat) (f : Nat) (start : Option HKey) (register curLimit : Nat)
    (h1 : ¬scanRows store start stop curLimit = [])
    (h2 : ¬(scanRows store start stop curLimit).length ≤ 1)
    (h3 : (limTruthy limit &&
      decide (limit.getD 0 ≤ register + (scanRows store start stop curLimit).length)) = true) :
    scanLoop store stop bs limit (f + 1) start register curLimit =
      ([⟨start, curLimit, scanRows store start stop curLimit⟩], .limitReached) := by
  simp only [scanLoop, if_neg h1, if_neg h2]
  rw [if_pos h3]

/-- Equation lemma: increment failure. -/
theorem scanLoop_succ_charError (store : List HKey) (stop : Option HKey) (bs : Nat)
    (limit : Option Nat) (f : Nat) (start : Option HKey) (register curLimit : Nat)
    (h1 : ¬scanRows store start stop curLimit = [])
    (h2 : ¬(scanRows store start stop curLimit).length ≤ 1)
    (h3 : ¬(limTruthy limit &&
      decide (limit.getD 0 ≤ register + (scanRows store start stop curLimit).length)) = true)
    (hm : incrKey ((scanRows store start stop curLimit).getLastD []) = none) :
    scanLoop store stop bs limit (f + 1) start register curLimit =
      ([⟨start, curLimit, scanRows store start stop curLimit⟩], .charError) := by
  simp only [scanLoop, if_neg h1, if_neg h2, hm]
  rw [if_neg h3]

/-- Equation lemma: a full round followed by the advanced recursive call. -/
theorem scanLoop_succ_rec (store : List HKey) (stop : Option HKey) (bs : Nat)
    (limit : Option Nat) (f : Nat) (start : Option HKey) (register curLimit : Nat)
    (start1 : HKey)
    (h1 : ¬scanRows store start stop curLimit = [])
    (h2 : ¬(scanRows store start stop curLimit).length ≤ 1)
    (h3 : ¬(limTruthy limit &&
      decide (limit.getD 0 ≤ register + (scanRows store start stop curLimit).length)) = true)
    (hm : incrKey ((scanRows store start stop curLimit).getLastD []) = some start1) :
    scanLoop store stop bs limit (f + 1) start register curLimit =
      (⟨start, curLimit, scanRows store start stop curLimit⟩ ::
        (scanLoop store stop bs limit f (some start1)
          (register + (scanRows store start stop curLimit).length)
          (if limTruthy limit then
            min bs (limit.getD 0 - (register + (scanRows store start stop curLimit).length))
          else curLimit)).1,
       (scanLoop store stop bs limit f (some start1)
          (register + (scanRows store start stop curLimit).length)
          (if limTruthy limit then
            min bs (limit.getD 0 - (register + (scanRows store start stop curLimit).length))
          else curLimit)).2) := by
  simp only [scanLoop, if_neg h1, if_neg h2, hm]
  rw [if_neg h3]

/-- Cursor advancement: any round that has a successor round hands it a
`row_start` equal to its own last row's key with the final character
incremented. -/
theorem scanLoop_advance (store : List HKey) (stop : Option HKey) (bs : Nat)
    (limit : Option Nat) :
    ∀ fuel start register curLimit i r r1,
      ((scanLoop store stop bs limit fuel start register curLimit).1).get? i = some r →
      ((scanLoop store stop bs limit fuel start register curLimit).1).get? (i + 1) = some r1 →
      r1.start = incrKey (r.data.getLastD []) := by
  intro fuel
  induction fuel with
  | zero =>
    intro start register curLimit i r r1 hr _
    simp [scanLoop] at hr
  | succ f ih =>
    intro start register curLimit i r r1 hr hr1
    by_cases h1 : scanRows store start stop curLimit = []
    · rw [scanLoop_succ_empty store stop bs limit f start register curLimit h1] at hr
      simp at hr
    by_cases h2 : (scanRows store start stop curLimit).length ≤ 1
    · rw [scanLoop_succ_single store stop bs limit f start register curLimit h1 h2] at hr1
      rcases i with _ | j <;> simp at hr1
    by_cases h3 : (limTruthy limit &&
        decide (limit.getD 0 ≤ register + (scanRows store start stop curLimit).length)) = true
    · rw [scanLoop_succ_limit store stop bs limit f start register curLimit h1 h2 h3] at hr1
      rcases i with _ | j <;> simp at hr1
    cases hm : incrKey ((scanRows store start stop curLimit).getLastD []) with
    | none =>
      rw [scanLoop_succ_charError store stop bs limit f start register curLimit h1 h2 h3 hm]
        at hr1
      rcases i with _ | j <;> simp at hr1
    | some start1 =>
      rw [scanLoop_succ_rec store stop bs limit f start register curLimit start1 h1 h2 h3 hm]
        at hr hr1
      rcases i with _ | j
      · simp only [List.get?_cons_zero, Option.some.injEq] at hr
        simp only [List.get?_cons_succ] at hr1
        rcases scanLoop_head store stop bs limit f (some start1)
            (register + (scanRows store start stop curLimit).length)
            (if limTruthy limit then
              min bs (limit.getD 0 - (register + (scanRows store start stop curLimit).length))
            else curLimit) with hnil | ⟨rest, hcons⟩
        · rw [hnil] at hr1; simp at hr1
        · rw [hcons] at hr1
          simp only [List.get?_cons_zero, Option.some.injEq] at hr1
          rw [← hr1, ← hr]
          exact hm.symm
      · simp only [List.get?_cons_succ] at hr hr1
        exact ih (some start1) (register + (scanRows store start stop curLimit).length)
          (if limTruthy limit then
            min bs (limit.getD 0 - (register + (scanRows store start stop curLimit).length))
          else curLimit) j r r1 hr hr1

/-- Single-row terminal rule: a round that yielded exactly one row is the
last round of the run. -/
theorem scanLoop_single_terminal (store : List HKey) (stop : Option HKey) (bs : Nat)
    (limit : Option Nat) :
    ∀ fuel start register curLimit i r,
      ((scanLoop store stop bs limit fuel start register curLimit).1).get? i = some r →
      r.data.length = 1 →
      ((scanLoop store stop bs limit fuel start register curLimit).1).get? (i + 1) = none := by
  intro fuel
  induction fuel with
  | zero =>
    intro start register curLimit i r hr _
    simp [scanLoop] at hr
  | succ f ih =>
    intro start register curLimit i r hr hone
    by_cases h1 : scanRows store start stop curLimit = []
    · rw [scanLoop_succ_empty store stop bs limit f start register curLimit h1] at hr
      simp at hr
    by_cases h2 : (scanRows store start stop curLimit).length ≤ 1
    · rw [scanLoop_succ_single store stop bs limit f start register curLimit h1 h2] at hr ⊢
      rcases i with _ | j
      · rfl
      · simp at hr
    by_cases h3 : (limTruthy limit &&
        decide (limit.getD 0 ≤ register + (scanRows store start stop curLimit).length)) = true
    · rw [scanLoop_succ_limit store stop bs limit f start register curLimit h1 h2 h3] at hr ⊢
      rcases i with _ | j
      · rfl
      · simp at hr
    cases hm : incrKey ((scanRows store start stop curLimit).getLastD []) with
    | none =>
      rw [scanLoop_succ_charError store stop bs limit f start register curLimit h1 h2 h3 hm]
        at hr ⊢
      rcases i with _ | j
      · rfl
      · simp at hr
    | some start1 =>
      rw [scanLoop_succ_rec store stop bs limit f start register curLimit start1 h1 h2 h3 hm]
        at hr ⊢
      rcases i with _ | j
      · simp only [List.get?_cons_zero, Option.some.injEq] at hr
        rw [← hr] at hone
        simp only at hone
        omega
      · simp only [List.get?_cons_succ] at hr ⊢
        exact ih (some start1) (register + (scanRows store start stop curLimit).length)
          (if limTruthy limit then
            min bs (limit.getD 0 - (register + (scanRows store start stop curLimit).length))
          else curLimit) j r hr hone

theorem scanRows_len_le (store : List HKey) (start stop : Option HKey) (lim : Nat) :
    (scanRows store start stop lim).length ≤ lim := by
  simp only [scanRows, List.length_take]
  omega

/-- Limit reconciliation: entering the loop with
`curLimit = min bs (l - register)` and `register < l`, every produced round
requests `min bs (l - rows previously returned)` from the store, and the
cumulative row count never exceeds `l`. -/
theorem scanLoop_limit_inv (store : List HKey) (stop : Option HKey) (bs l : Nat)
    (hl : 0 < l) :
    ∀ fuel start register,
      register < l →
      (∀ i r,
        ((scanLoop store stop bs (some l) fuel start register
          (min bs (l - register))).1).get? i = some r →
        r.requested = min bs (l - (register +
          rowsBefore (scanLoop store stop bs (some l) fuel start register
            (min bs (l - register))).1 i))) ∧
      register + totalRows (scanLoop store stop bs (some l) fuel start register
        (min bs (l - register))).1 ≤ l := by
  intro fuel
  induction fuel with
  | zero =>
    intro start register hreg
    constructor
    · intro i r hr; simp [scanLoop] at hr
    · simp [scanLoop, totalRows]; omega
  | succ f ih =>
    intro start register hreg
    have hlen := scanRows_len_le store start stop (min bs (l - register))
    have hdata_le : (scanRows store start stop (min bs (l - register))).length ≤ l - register :=
      le_trans hlen (by omega)
    by_cases h1 : scanRows store start stop (min bs (l - register)) = []
    · rw [scanLoop_succ_empty store stop bs (some l) f start register _ h1]
      constructor
      · intro i r hr; simp at hr
      · simp [totalRows]; omega
    by_cases h2 : (scanRows store start stop (min bs (l - register))).length ≤ 1
    · rw [scanLoop_succ_single store stop bs (some l) f start register _ h1 h2]
      constructor
      · intro i r hr
        rcases i with _ | j
        · simp only [List.get?_cons_zero, Option.some.injEq] at hr
          rw [← hr]
          simp [rowsBefore]
        · simp at hr
      · simp only [totalRows, List.map_cons, List.map_nil, List.sum_cons, List.sum_nil]
        omega
    by_cases h3 : (limTruthy (some l) && decide ((some l).getD 0 ≤ register +
        (scanRows store start stop (min bs (l - register))).length)) = true
    · rw [scanLoop_succ_limit store stop bs (some l) f start register _ h1 h2 h3]
      constructor
      · intro i r hr
        rcases i with _ | j
        · simp only [List.get?_cons_zero, Option.some.injEq] at hr
          rw [← hr]
          simp [rowsBefore]
        · simp at hr
      · simp only [totalRows, List.map_cons, List.map_nil, List.sum_cons, List.sum_nil]
        omega
    cases hm : incrKey ((scanRows store start stop (min bs (l - register))).getLastD []) with
    | none =>
      rw [scanLoop_succ_charError store stop bs (some l) f start register _ h1 h2 h3 hm]
      constructor
      · intro i r hr
        rcases i with _ | j
        · simp only [List.get?_cons_zero, Option.some.injEq] at hr
          rw [← hr]
          simp [rowsBefore]
        · simp at hr
      · simp only [totalRows, List.map_cons, List.map_nil, List.sum_cons, List.sum_nil]
        omega
    | some start1 =>
      have hreg1 : register + (scanRows store start stop (min bs (l - register))).length < l := by
        simp only [limTruthy, Option.getD_some, Bool.and_eq_true, decide_eq_true_eq] at h3
        push_neg at h3
        exact h3 (by simpa using hl)
      have hcl1 : (if limTruthy (some l) then
          min bs ((some l).getD 0 - (register +
            (scanRows store start stop (min bs (l - register))).length))
        else min bs (l - register)) =
          min bs (l - (register +
            (scanRows store start stop (min bs (l - register))).length)) := by
        simp [limTruthy, hl]
      rw [scanLoop_succ_rec store stop bs (some l) f start register _ start1 h1 h2 h3 hm]
      rw [hcl1]
      obtain ⟨ihreq, ihsum⟩ := ih (some start1)
        (register + (scanRows store start stop (min bs (l - register))).length) hreg1
      constructor
      · intro i r hr
        rcases i with _ | j
        · simp only [List.get?_cons_zero, Option.some.injEq] at hr
          rw [← hr]
          simp [rowsBefore]
        · simp only [List.get?_cons_succ] at hr
          have := ihreq j r hr
          rw [this]
          simp only [rowsBefore, List.take_succ_cons, List.map_cons, List.sum_cons]
          congr 2
          omega
      · simp only [totalRows, List.map_cons, List.sum_cons] at ihsum ⊢
        omega

/-- Termination shape: when every store key admits the final-character
increment and the fuel exceeds the number of keys still in range, the loop
ends in one of the three normal states and produces at most one round more
than there are keys in range. -/
theorem scanLoop_normal (store : List HKey) (stop : Option HKey) (bs : Nat)
    (limit : Option Nat) (hkeys : ∀ k ∈ store, ∃ q, incrKey k = some q) :
    ∀ fuel start register curLimit,
      (store.filter (fun k => inRange start stop k)).length < fuel →
      ((scanLoop store stop bs limit fuel start register curLimit).2 = .exhausted ∨
       (scanLoop store stop bs limit fuel start register curLimit).2 = .singleRow ∨
       (scanLoop store stop bs limit fuel start register curLimit).2 = .limitReached) ∧
      ((scanLoop store stop bs limit fuel start register curLimit).1).length ≤
        (store.filter (fun k => inRange start stop k)).length + 1 := by
  intro fuel
  induction fuel with
  | zero => intro start register curLimit hf; omega
  | succ f ih =>
    intro start register curLimit hf
    by_cases h1 : scanRows store start stop curLimit = []
    · rw [scanLoop_succ_empty store stop bs limit f start register curLimit h1]
      exact ⟨Or.inl rfl, by simp⟩
    by_cases h2 : (scanRows store start stop curLimit).length ≤ 1
    · rw [scanLoop_succ_single store stop bs limit f start register curLimit h1 h2]
      exact ⟨Or.inr (Or.inl rfl), by simp⟩
    by_cases h3 : (limTruthy limit &&
        decide (limit.getD 0 ≤ register + (scanRows store start stop curLimit).length)) = true
    · rw [scanLoop_succ_limit store stop bs limit f start register curLimit h1 h2 h3]
      exact ⟨Or.inr (Or.inr rfl), by simp⟩
    cases hm : incrKey ((scanRows store start stop curLimit).getLastD []) with
    | none =>
      exfalso
      have hmem : (scanRows store start stop curLimit).getLastD [] ∈ store :=
        List.mem_of_mem_filter (List.take_subset _ _ (getLastD_mem _ [] h1))
      obtain ⟨q, hq⟩ := hkeys _ hmem
      rw [hq] at hm
      exact Option.noConfusion hm
    | some start1 =>
      rw [scanLoop_succ_rec store stop bs limit f start register curLimit start1 h1 h2 h3 hm]
      have hdec := scan_measure_dec store start stop curLimit start1 h1 hm
      have hih := ih (some start1) (register + (scanRows store start stop curLimit).length)
        (if limTruthy limit then
          min bs (limit.getD 0 - (register + (scanRows store start stop curLimit).length))
        else curLimit) (by omega)
      refine ⟨hih.1, ?_⟩
      simp only [List.length_cons]
      have := hih.2
      omega

/-- The loop inspects `limit` only through its truthiness (and, when truthy,
its value), so `limit = 0` and `limit = None` drive it identically. -/
theorem scanLoop_zero_limit (store : List HKey) (stop : Option HKey) (bs : Nat) :
    ∀ fuel start register curLimit,
      scanLoop store stop bs (some 0) fuel start register curLimit =
        scanLoop store stop bs none fuel start register curLimit := by
  intro fuel
  induction fuel with
  | zero => intro start register curLimit; rfl
  | succ f ih =>
    intro start register curLimit
    simp only [scanLoop, limTruthy, ih]
    rfl

/-!
### Decimal rendering facts (for the auto-mode row keys)

`f"{uid}~{row_auto}"` renders the counter in decimal; `Nat.repr` is its
embedding.  The library states no injectivity for `Nat.repr`, so it is proved
here through a decimal decoder.
-/

theorem toDigitsCore_append (f : Nat) :
    ∀ (n : Nat) (ds : List Char),
      Nat.toDigitsCore 10 f n ds = Nat.toDigitsCore 10 f n [] ++ ds := by
  induction f with
  | zero => intro n ds; rfl
  | succ f ih =>
    intro n ds
    simp only [Nat.toDigitsCore]
    by_cases h : n / 10 = 0
    · simp [h]
    · simp only [h, if_false]
      rw [ih (n / 10) (Nat.digitChar (n % 10) :: ds), ih (n / 10) [Nat.digitChar (n % 10)]]
      simp

theorem digitChar_val (d : Nat) (hd : d < 10) : (Nat.digitChar d).toNat - 48 = d := by
  interval_cases d <;> rfl

/-- Decimal decoder for the characters produced by `Nat.toDigitsCore`. -/
def decDigits (l : List Char) : Nat :=
  l.foldl (fun a c => a * 10 + (c.toNat - 48)) 0

theorem decDigits_toDigitsCore (f : Nat) :
    ∀ n : Nat, n < f → decDigits (Nat.toDigitsCore 10 f n []) = n := by
  induction f with
  | zero => intro n h; omega
  | succ f ih =>
    intro n h
    simp only [Nat.toDigitsCore]
    by_cases hdiv : n / 10 = 0
    · have hn : n < 10 := by omega
      simp only [hdiv, if_true, decDigits, List.foldl_cons, List.foldl_nil]
      rw [Nat.mod_eq_of_lt hn]
      simpa using digitChar_val n hn
    · have hge : 10 ≤ n := by
        by_contra hlt
        exact hdiv (Nat.div_eq_of_lt (by omega))
      have hrec : n / 10 < f := by
        have := Nat.div_lt_self (by omega : 0 < n) (by omega : 1 < 10)
        omega
      simp only [hdiv, if_false]
      rw [toDigitsCore_append f (n / 10) [Nat.digitChar (n % 10)]]
      have hih := ih (n / 10) hrec
      simp only [decDigits] at hih ⊢
      rw [List.foldl_append, hih]
      simp only [List.foldl_cons, List.foldl_nil]
      rw [digitChar_val (n % 10) (Nat.mod_lt n (by omega))]
      omega

theorem natRepr_inj (m n : Nat) (h : Nat.repr m = Nat.repr n) : m = n := by
  have hd : Nat.toDigits 10 m = Nat.toDigits 10 n := by
    have := congrArg String.data h
    simpa [Nat.repr, List.asString] using this
  have hm := decDigits_toDigitsCore (m + 1) m (by omega)
  have hn := decDigits_toDigitsCore (n + 1) n (by omega)
  simp only [Nat.toDigits] at hd
  rw [← hm, ← hn, hd]

theorem strAppend_data (s t : String) : (s ++ t).data = s.data ++ t.data := rfl

theorem strAppend_left_cancel (p a b : String) (h : p ++ a = p ++ b) : a = b := by
  have hdata : p.data ++ a.data = p.data ++ b.data := by
    have := congrArg String.data h
    simpa [strAppend_data] using this
  exact String.ext (List.append_cancel_left hdata)

/-- The auto-mode row keys `f"{uid}~{i}"` are injective in the counter. -/
theorem autoKey_inj (uid : String) (i j : Nat)
    (h : uid ++ "~" ++ Nat.repr i = uid ++ "~" ++ Nat.repr j) : i = j :=
  natRepr_inj i j (strAppend_left_cancel (uid ++ "~") _ _ h)

/-!
### Dict and mapping lemmas for the write path
-/

theorem lookupKey_dictSet_same (m : List (String × String)) (k v : String) :
    lookupKey (dictSet m k v) k = some v := by
  by_cases hany : m.any (fun p => p.1 == k) = true
  · simp only [dictSet, if_pos hany]
    induction m with
    | nil => simp at hany
    | cons p rest ih =>
      by_cases hp : p.1 == k
      · simp [lookupKey, List.find?, hp]
      · simp only [List.any_cons, Bool.or_eq_true] at hany
        rcases hany with h | h
        · exact absurd h hp
        · simp only [List.map_cons, if_neg hp]
          simp only [lookupKey, List.find?, hp]
          exact ih h
  · simp only [dictSet, if_neg hany]
    induction m with
    | nil => simp [lookupKey, List.find?]
    | cons p rest ih =>
      simp only [List.any_cons, Bool.or_eq_true, not_or] at hany
      have hp : (p.1 == k) = false := by
        rcases hany with ⟨h, _⟩
        exact Bool.not_eq_true _ ▸ h
      simp only [List.cons_append, lookupKey, List.find?, hp]
      exact ih (by simp [hany.2])

theorem lookupKey_map_overwrite (m : List (String × String)) (k v k1 : String)
    (hne : k1 ≠ k) :
    lookupKey (m.map (fun p => if p.1 == k then (k, v) else p)) k1 = lookupKey m k1 := by
  have hkk : (k == k1) = false := by
    simp only [beq_eq_false_iff_ne, ne_eq]
    exact fun h => hne h.symm
  induction m with
  | nil => rfl
  | cons p rest ih =>
    by_cases hp : (p.1 == k) = true
    · have hp1 : (p.1 == k1) = false := by
        simp only [beq_iff_eq] at hp
        rw [hp]
        exact hkk
      simp only [List.map_cons, if_pos hp, lookupKey, List.find?, hkk, hp1]
      exact ih
    · simp only [List.map_cons, if_neg hp, lookupKey, List.find?]
      cases hp1 : (p.1 == k1) with
      | true => rfl
      | false => exact ih

theorem lookupKey_append_single (m : List (String × String)) (k v k1 : String)
    (hne : k1 ≠ k) :
    lookupKey (m ++ [(k, v)]) k1 = lookupKey m k1 := by
  have hkk : (k == k1) = false := by
    simp only [beq_eq_false_iff_ne, ne_eq]
    exact fun h => hne h.symm
  induction m with
  | nil => simp [lookupKey, List.find?, hkk]
  | cons p rest ih =>
    simp only [List.cons_append, lookupKey, List.find?]
    cases hp1 : (p.1 == k1) with
    | true => rfl
    | false => exact ih

theorem lookupKey_dictSet_other (m : List (String × String)) (k v k1 : String)
    (hne : k1 ≠ k) : lookupKey (dictSet m k v) k1 = lookupKey m k1 := by
  by_cases hany : m.any (fun p => p.1 == k) = true
  · simp only [dictSet, if_pos hany]
    exact lookupKey_map_overwrite m k v k1 hne
  · simp only [dictSet, if_neg hany]
    exact lookupKey_append_single m k v k1 hne

theorem addAllFields_preserve {α : Type} (strFn : α → String) (cf key : String) :
    ∀ (d : List (String × α)) (vs : List (String × String)),
      (∀ e ∈ d, cf ++ ":" ++ e.1 ≠ key) →
      lookupKey (addAllFields strFn cf d vs) key = lookupKey vs key := by
  intro d
  induction d with
  | nil => intro vs _; rfl
  | cons p rest ih =>
    intro vs hne
    simp only [addAllFields, List.foldl_cons]
    rw [show rest.foldl (fun vs p => dictSet vs (cf ++ ":" ++ p.1) (strFn p.2))
        (dictSet vs (cf ++ ":" ++ p.1) (strFn p.2)) =
      addAllFields strFn cf rest (dictSet vs (cf ++ ":" ++ p.1) (strFn p.2)) from rfl]
    rw [ih (dictSet vs (cf ++ ":" ++ p.1) (strFn p.2))
      (fun e he => hne e (List.mem_cons_of_mem p he))]
    exact lookupKey_dictSet_other vs (cf ++ ":" ++ p.1) (strFn p.2) key
      (fun h => hne p (List.mem_cons_self p rest) h.symm)

/-- `addAllFields` really adds every field of the working record: the column
`cf:c` of any field `(c, v)` of a record with distinct field names looks up to
`str(v)` — whatever the accumulator already contained. -/
theorem lookupKey_addAllFields {α : Type} (strFn : α → String) (cf : String) :
    ∀ (d : List (String × α)) (vs : List (String × String)) (c : String) (v : α),
      (c, v) ∈ d → (d.map Prod.fst).Nodup →
      lookupKey (addAllFields strFn cf d vs) (cf ++ ":" ++ c) = some (strFn v) := by
  intro d
  induction d with
  | nil => intro vs c v hmem _; exact absurd hmem (List.not_mem_nil _)
  | cons p rest ih =>
    intro vs c v hmem hnd
    simp only [List.map_cons, List.nodup_cons] at hnd
    simp only [addAllFields, List.foldl_cons]
    rw [show rest.foldl (fun vs p => dictSet vs (cf ++ ":" ++ p.1) (strFn p.2))
        (dictSet vs (cf ++ ":" ++ p.1) (strFn p.2)) =
      addAllFields strFn cf rest (dictSet vs (cf ++ ":" ++ p.1) (strFn p.2)) from rfl]
    rcases List.mem_cons.mp hmem with heq | hrest
    · have hpc : p = (c, v) := heq.symm
      subst hpc
      rw [addAllFields_preserve strFn cf (cf ++ ":" ++ c) rest _ ?hne]
      · exact lookupKey_dictSet_same vs (cf ++ ":" ++ c) (strFn v)
      case hne =>
        intro e he habs
        have hec : e.1 = c := strAppend_left_cancel (cf ++ ":") e.1 c habs
        have hmape : e.1 ∈ rest.map Prod.fst := List.mem_map_of_mem Prod.fst he
        rw [hec] at hmape
        exact hnd.1 hmape
    · exact ih (dictSet vs (cf ++ ":" ++ p.1) (strFn p.2)) c v hrest hnd.2

theorem buildValuesGo_invalid {α : Type} (strFn : α → String) (d : List (String × α))
    (cf : String) :
    ∀ (mapping : List (String × FieldSel)) (vals : List (String × String)),
      (cf, FieldSel.invalid) ∈ mapping →
      buildValuesGo strFn d vals mapping =
        .error "Column mapping must be a list of fields or \x27all\x27" := by
  intro mapping
  induction mapping with
  | nil => intro vals h; exact absurd h (List.not_mem_nil _)
  | cons e rest ih =>
    intro vals hmem
    rcases e with ⟨cf0, sel⟩
    rcases List.mem_cons.mp hmem with heq | hrest
    · cases heq
      rfl
    · cases sel with
      | all => exact ih _ hrest
      | flds fs => exact ih _ hrest
      | invalid => rfl

theorem buildValuesGo_ok {α : Type} (strFn : α → String) (d : List (String × α)) :
    ∀ (mapping : List (String × FieldSel)) (vals : List (String × String)),
      (∀ e ∈ mapping, e.2 ≠ FieldSel.invalid) →
      ∃ v, buildValuesGo strFn d vals mapping = .ok v := by
  intro mapping
  induction mapping with
  | nil => intro vals _; exact ⟨vals, rfl⟩
  | cons e rest ih =>
    intro vals hval
    rcases e with ⟨cf0, sel⟩
    cases sel with
    | all => exact ih _ (fun e he => hval e (List.mem_cons_of_mem _ he))
    | flds fs => exact ih _ (fun e he => hval e (List.mem_cons_of_mem _ he))
    | invalid =>
      exact absurd rfl (hval (cf0, FieldSel.invalid) (List.mem_cons_self _ _))

theorem batchPut_puts (bs : Nat) (st : WState) (row : String)
    (vals : List (String × String)) : (batchPut bs st row vals).puts = st.puts ++ [row] := by
  simp only [batchPut]
  split <;> rfl

theorem batchSend_puts (st : WState) : (batchSend st).puts = st.puts := by
  simp only [batchSend]
  split <;> rfl

/-- Auto-mode key generation: starting the loop at counter `rowAuto`, the put
row keys are exactly `uid ++ "~" ++ repr i` for the consecutive counters. -/
theorem saveGo_auto_puts {α : Type} (strFn : α → String)
    (cf_mapping : List (String × FieldSel)) (row_fields : Option (List String))
    (bs : Nat) (uid : String) (hrf : rfTruthy row_fields = false)
    (hmap : ∀ e ∈ cf_mapping, e.2 ≠ FieldSel.invalid) :
    ∀ (docs : List (List (String × α))) (rowAuto : Nat) (st : WState),
      (saveGo strFn cf_mapping row_fields bs uid docs rowAuto st).1.puts =
        st.puts ++ (List.range' rowAuto docs.length).map
          (fun i => uid ++ "~" ++ Nat.repr i) := by
  intro docs
  induction docs with
  | nil =>
    intro rowAuto st
    simp only [saveGo, batchSend_puts, List.length_nil, List.range'_zero, List.map_nil,
      List.append_nil]
  | cons d ds ih =>
    intro rowAuto st
    obtain ⟨vals, hv⟩ := buildValuesGo_ok strFn d cf_mapping [] hmap
    simp only [saveGo, hrf, Bool.false_eq_true, if_false, buildValues, hv]
    rw [ih (rowAuto + 1) (batchPut bs st (uid ++ "~" ++ Nat.repr rowAuto) vals)]
    rw [batchPut_puts]
    simp only [List.length_cons, List.range'_succ, List.map_cons, List.append_assoc,
      List.cons_append, List.nil_append]

theorem take_set_of_le {β : Type} :
    ∀ (l : List β) (i : Nat) (x : β) (n : Nat), n ≤ i → (l.set i x).take n = l.take n := by
  intro l
  induction l with
  | nil => intro i x n _; simp
  | cons a t ih =>
    intro i x n hni
    cases i with
    | zero =>
      have : n = 0 := by omega
      simp [this]
    | succ j =>
      cases n with
      | zero => simp
      | succ m =>
        simp only [List.set_cons_succ, List.take_succ_cons]
        rw [ih j x m (by omega)]

theorem popFieldsHeap_length {α : Type} (strFn : α → String) (idx : Nat) :
    ∀ (fs : List String) (heap : List (List (String × α))),
      ((popFieldsHeap strFn heap idx fs).2).length = heap.length := by
  intro fs
  induction fs with
  | nil => intro heap; rfl
  | cons f fs ih =>
    intro heap
    simp only [popFieldsHeap]
    cases lookupKey (heap.getD idx []) f with
    | some v => simpa using (ih _).trans (List.length_set heap idx _ ▸ rfl)
    | none => simpa using ih heap

theorem popFieldsHeap_take {α : Type} (strFn : α → String) (idx : Nat) :
    ∀ (fs : List String) (heap : List (List (String × α))) (n : Nat), n ≤ idx →
      ((popFieldsHeap strFn heap idx fs).2).take n = heap.take n := by
  intro fs
  induction fs with
  | nil => intro heap n _; rfl
  | cons f fs ih =>
    intro heap n hn
    simp only [popFieldsHeap]
    cases lookupKey (heap.getD idx []) f with
    | some v =>
      simp only []
      rw [ih _ n hn, take_set_of_le heap idx _ n hn]
    | none =>
      simp only []
      rw [ih heap n hn]

/-- The caller's cells are untouched by the write loop: every prefix of the
heap that stops at or before the first freshly allocated copy is returned
unchanged. -/
theorem saveHeapGo_frame {α : Type} (strFn : α → String)
    (cf_mapping : List (String × FieldSel)) (row_fields : Option (List String))
    (bs : Nat) (uid : String) :
    ∀ (refs : List Nat) (rowAuto : Nat) (st : WState)
      (heap : List (List (String × α))) (n : Nat), n ≤ heap.length →
      ((saveHeapGo strFn cf_mapping row_fields bs uid refs rowAuto st heap).1).take n =
        heap.take n := by
  intro refs
  induction refs with
  | nil => intro rowAuto st heap n _; rfl
  | cons r rs ih =>
    intro rowAuto st heap n hn
    have hlen1 : (heap ++ [heap.getD r []]).length = heap.length + 1 := by simp
    have htake1 : (heap ++ [heap.getD r []]).take n = heap.take n :=
      List.take_append_of_le_length hn
    by_cases hrf : rfTruthy row_fields = true
    · simp only [saveHeapGo, hrf, if_true]
      have hplen := popFieldsHeap_length strFn heap.length (row_fields.getD [])
        (heap ++ [heap.getD r []])
      have hptake := popFieldsHeap_take strFn heap.length (row_fields.getD [])
        (heap ++ [heap.getD r []]) n hn
      cases hbv : buildValues strFn
          (((popFieldsHeap strFn (heap ++ [heap.getD r []]) heap.length
            (row_fields.getD [])).2).getD heap.length []) cf_mapping with
      | error m =>
        simp only [hbv]
        rw [hptake, htake1]
      | ok vals =>
        simp only [hbv]
        rw [ih _ _ _ n (by rw [hplen, hlen1]; omega), hptake, htake1]
    · simp only [saveHeapGo, hrf, Bool.false_eq_true, if_false]
      cases hbv : buildValues strFn ((heap ++ [heap.getD r []]).getD heap.length [])
          cf_mapping with
      | error m =>
        simp only [hbv]
        rw [htake1]
      | ok vals =>
        simp only [hbv]
        rw [ih _ _ _ n (by rw [hlen1]; omega), htake1]

/-- Explicit form of the final-character increment for a nonempty key whose
final code point is below `0x10FFFF`. -/
theorem incrKey_eq (p : HKey) :
    ∀ (_hne : p ≠ []) (_hc : p.getLastD 0 + 1 < 1114112),
      incrKey p = some (p.dropLast ++ [p.getLastD 0 + 1]) := by
  induction p with
  | nil => intro hne _; exact absurd rfl hne
  | cons c rest ih =>
    intro hne hc
    cases rest with
    | nil =>
      simp only [List.getLastD_cons, List.getLastD_nil] at hc
      simp [incrKey, hc]
    | cons d rest2 =>
      have hrne : (d :: rest2) ≠ ([] : HKey) := by simp
      have hlast : (c :: d :: rest2).getLastD 0 = (d :: rest2).getLastD 0 := by
        simp [List.getLastD_cons]
      rw [hlast] at hc
      simp only [incrKey, ih hrne hc, Option.map_some']
      simp [List.dropLast_cons₂, hlast]

/-!
### Claim theorems
-/

/-- C1 (counterexample): `save_to_hbase` does NOT remove fields consumed by a
mapping entry from the working copy.  For mapping `[("a", ["x"]), ("b", "all")]`
and record `{x:1, y:2}` the produced columns are
`{a:x: "1", b:x: "1", b:y: "2"}` — in particular `x` DOES appear again under
family `b`, contradicting the claimed result `{a:x: "1", b:y: "2"}`. -/
theorem claim_C1_counterexample :
    buildValues Nat.repr [("x", 1), ("y", 2)]
      [("a", FieldSel.flds ["x"]), ("b", FieldSel.all)] =
      .ok [("a:x", "1"), ("b:x", "1"), ("b:y", "2")] ∧
    lookupKey [("a:x", "1"), ("b:x", "1"), ("b:y", "2")] "b:x" = some "1" :=
  ⟨rfl, rfl⟩

/-- C1 (amended): mapping entries never shrink the working copy, so an
`"all"` selector emits every field of the record — including fields already
claimed by an earlier explicit list.  For any record with distinct field
names, every field `(c, v)` shows up under the `"all"` family as
`cfB:c ↦ str(v)`. -/
theorem claim_C1_amended (cfA cfB : String) (l : List String)
    (d : List (String × Nat)) (c : String) (v : Nat)
    (hnd : (d.map Prod.fst).Nodup) (hmem : (c, v) ∈ d) :
    lookupKey
      ((buildValues Nat.repr d
        [(cfA, FieldSel.flds l), (cfB, FieldSel.all)]).toOption.getD [])
      (cfB ++ ":" ++ c) = some (Nat.repr v) := by
  have hbv : buildValues Nat.repr d [(cfA, FieldSel.flds l), (cfB, FieldSel.all)] =
      .ok (addAllFields Nat.repr cfB d (addListedFields Nat.repr cfA l d [])) := rfl
  rw [hbv]
  exact lookupKey_addAllFields Nat.repr cfB d _ c v hmem hnd

/-- C1 (witness): the amended statement at the concrete record of the claim. -/
theorem claim_C1_witness :
    lookupKey
      ((buildValues Nat.repr [("x", 1), ("y", 2)]
        [("a", FieldSel.flds ["x"]), ("b", FieldSel.all)]).toOption.getD [])
      ("b" ++ ":" ++ "x") = some "1" :=
  claim_C1_amended "a" "b" ["x"] [("x", 1), ("y", 2)] "x" 1 (by decide) (by decide)

/-- C4: an invalid selector anywhere in `cf_mapping` makes the write call
fail during construction of the very first record's values: the raised
exception is surfaced and nothing has been flushed to the store. -/
theorem claim_C4_invalid_mapping {α : Type} (strFn : α → String)
    (docs : List (List (String × α))) (mapping : List (String × FieldSel))
    (rf : Option (List String)) (bs : Nat) (uid : String) (cf : String)
    (hmem : (cf, FieldSel.invalid) ∈ mapping) (hne : docs ≠ []) :
    (save_to_hbase strFn docs mapping rf bs uid).1.flushed = [] ∧
    (save_to_hbase strFn docs mapping rf bs uid).2 =
      some "Column mapping must be a list of fields or \x27all\x27" := by
  cases docs with
  | nil => exact absurd rfl hne
  | cons d ds =>
    simp only [save_to_hbase, saveGo, buildValues]
    by_cases hrf : rfTruthy rf = true
    · simp [hrf, buildValuesGo_invalid strFn (popFields strFn d (rf.getD [])).2 cf
        mapping [] hmem]
    · simp [hrf, buildValuesGo_invalid strFn d cf mapping [] hmem]

/-- C4 (witness): the invalid-mapping failure at a concrete input. -/
theorem claim_C4_witness :
    (save_to_hbase Nat.repr [[("x", 1)]] [("a", FieldSel.invalid)] none 5 "u").1.flushed
      = [] ∧
    (save_to_hbase Nat.repr [[("x", 1)]] [("a", FieldSel.invalid)] none 5 "u").2 =
      some "Column mapping must be a list of fields or \x27all\x27" :=
  claim_C4_invalid_mapping Nat.repr [[("x", 1)]] [("a", FieldSel.invalid)] none 5 "u" "a"
    (by decide) (by simp)

/-- C5 (counterexample): a table-creation failure that is NOT
`AlreadyExists` is not surfaced to the caller: `__get_h_table__` merely
prints it and still returns the table handle, exactly as in the success
case. -/
theorem claim_C5_counterexample :
    get_h_table (.error ⟨"<class \x27ValueError\x27>", "boom"⟩) "t" = ("t", ["boom"]) := by
  decide

/-- C5 (amended): `AlreadyExists` is recovered silently and treated as
success; every other creation failure is printed but equally swallowed — the
table handle is returned and no error propagates to the caller. -/
theorem claim_C5_amended (e : PyErr) (t : String) :
    (e.cls = alreadyExistsCls → get_h_table (.error e) t = (t, [])) ∧
    (e.cls ≠ alreadyExistsCls → get_h_table (.error e) t = (t, [e.msg])) := by
  constructor
  · intro h
    simp [get_h_table, h]
  · intro h
    simp [get_h_table, h]

/-- C5 (witness): both branches of the amended statement at concrete
exceptions. -/
theorem claim_C5_witness :
    get_h_table (.error ⟨"<class \x27Hbase_thrift.AlreadyExists\x27>", "dup"⟩) "t"
      = ("t", []) ∧
    get_h_table (.error ⟨"<class \x27OtherError\x27>", "boom"⟩) "t" = ("t", ["boom"]) :=
  ⟨(claim_C5_amended ⟨alreadyExistsCls, "dup"⟩ "t").1 rfl,
   (claim_C5_amended ⟨"<class \x27OtherError\x27>", "boom"⟩ "t").2 (by decide)⟩

/-- C7: in auto mode (falsy `row_fields`) with a valid mapping, the row keys
put during a session are exactly `f"{uid}~{i}"` for `i = 0, …, N-1` in call
order, and they are pairwise distinct. -/
theorem claim_C7_auto_keys {α : Type} (strFn : α → String)
    (docs : List (List (String × α))) (mapping : List (String × FieldSel))
    (rf : Option (List String)) (bs : Nat) (uid : String)
    (hrf : rfTruthy rf = false)
    (hmap : ∀ e ∈ mapping, e.2 ≠ FieldSel.invalid) :
    (save_to_hbase strFn docs mapping rf bs uid).1.puts =
      (List.range docs.length).map (fun i => uid ++ "~" ++ Nat.repr i) ∧
    (save_to_hbase strFn docs mapping rf bs uid).1.puts.Nodup := by
  have h := saveGo_auto_puts strFn mapping rf bs uid hrf hmap docs 0 ⟨[], 0, [], []⟩
  rw [List.range_eq_range' docs.length] at *
  constructor
  · rw [save_to_hbase, h]
    rfl
  · rw [save_to_hbase, h]
    simp only [List.nil_append]
    refine List.Nodup.map (fun i j hij => autoKey_inj uid i j hij) ?_
    exact List.nodup_range' 0 docs.length

/-- C7 (witness): two records in auto mode produce keys `u~0`, `u~1`. -/
theorem claim_C7_witness :
    (save_to_hbase Nat.repr [[("x", 1)], [("y", 2)]] [("cf", FieldSel.all)]
      none 1000 "u").1.puts =
      (List.range 2).map (fun i => "u" ++ "~" ++ Nat.repr i) ∧
    (save_to_hbase Nat.repr [[("x", 1)], [("y", 2)]] [("cf", FieldSel.all)]
      none 1000 "u").1.puts.Nodup :=
  claim_C7_auto_keys Nat.repr [[("x", 1)], [("y", 2)]] [("cf", FieldSel.all)]
    none 1000 "u" rfl (by decide)

/-- C9: `save_to_hbase` never mutates the caller's records: with the object
heap made explicit, every cell the caller handed in is unchanged after the
call — key-field removal happens only on the per-record copies allocated by
`d.copy()`. -/
theorem claim_C9_no_mutation {α : Type} (strFn : α → String)
    (heap : List (List (String × α))) (refs : List Nat)
    (mapping : List (String × FieldSel)) (rf : Option (List String))
    (bs : Nat) (uid : String) :
    ((save_to_hbase_heap strFn heap refs mapping rf bs uid).1).take heap.length = heap := by
  rw [save_to_hbase_heap,
    saveHeapGo_frame strFn mapping rf bs uid refs 0 ⟨[], 0, [], []⟩ heap heap.length
      (le_refl _)]
  exact List.take_length heap

/-- C2: cursor advancement and the single-row terminal rule.  Whenever a
round has a successor round, the successor's `row_start` is the previous
round's last yielded key with its final character's code point incremented;
and a round that yielded exactly one row is the final round of the run. -/
theorem claim_C2_advancement (store : List HKey) (rs rst rp : Option HKey)
    (bs : Nat) (limit : Option Nat) :
    (∀ i r r1,
      ((get_hbase_data_batch store rs rst rp bs limit).1).get? i = some r →
      ((get_hbase_data_batch store rs rst rp bs limit).1).get? (i + 1) = some r1 →
      r1.start = incrKey (r.data.getLastD [])) ∧
    (∀ i r,
      ((get_hbase_data_batch store rs rst rp bs limit).1).get? i = some r →
      r.data.length = 1 →
      ((get_hbase_data_batch store rs rst rp bs limit).1).get? (i + 1) = none) := by
  cases hdb : deriveBounds rs rst rp with
  | none =>
    constructor
    · intro i r r1 hr _
      simp [get_hbase_data_batch, hdb] at hr
    · intro i r hr _
      simp [get_hbase_data_batch, hdb] at hr
  | some b =>
    rcases b with ⟨s, t⟩
    simp only [get_hbase_data_batch, hdb]
    exact ⟨fun i r r1 hr hr1 =>
        scanLoop_advance store t bs limit (store.length + 1) s 0 _ i r r1 hr hr1,
      fun i r hr hone =>
        scanLoop_single_terminal store t bs limit (store.length + 1) s 0 _ i r hr hone⟩

/-- C2 (witness): the claim's concrete scenario — rounds `["k1","k2"]` then
`["k3"]` (store also contains `k4` past the limit): the second round starts
at `k2` incremented (= `k3`) and the run stops after the single-row round. -/
theorem claim_C2_witness :
    (Round.mk (some [107, 51]) 1 [[107, 51]]).start =
      incrKey ((Round.mk none 2 [[107, 49], [107, 50]]).data.getLastD []) ∧
    ((get_hbase_data_batch [[107, 49], [107, 50], [107, 51], [107, 52]]
      none none none 2 (some 3)).1).get? 2 = none :=
  ⟨(claim_C2_advancement [[107, 49], [107, 50], [107, 51], [107, 52]]
      none none none 2 (some 3)).1 0
      (Round.mk none 2 [[107, 49], [107, 50]])
      (Round.mk (some [107, 51]) 1 [[107, 51]]) rfl rfl,
   (claim_C2_advancement [[107, 49], [107, 50], [107, 51], [107, 52]]
      none none none 2 (some 3)).2 1
      (Round.mk (some [107, 51]) 1 [[107, 51]]) rfl rfl⟩

/-- C3: with a truthy limit `l`, every round requests
`min(batch_size, l - rows already returned)` from the store, and the total
number of rows yielded never exceeds `l`. -/
theorem claim_C3_limit_sizes (store : List HKey) (rs rst rp : Option HKey)
    (bs l : Nat) (hl : 0 < l) :
    (∀ i r,
      ((get_hbase_data_batch store rs rst rp bs (some l)).1).get? i = some r →
      r.requested =
        min bs (l - rowsBefore (get_hbase_data_batch store rs rst rp bs (some l)).1 i)) ∧
    totalRows (get_hbase_data_batch store rs rst rp bs (some l)).1 ≤ l := by
  cases hdb : deriveBounds rs rst rp with
  | none =>
    constructor
    · intro i r hr
      simp [get_hbase_data_batch, hdb] at hr
    · simp [get_hbase_data_batch, hdb, totalRows]
  | some b =>
    rcases b with ⟨s, t⟩
    have hcl : (if limTruthy (some l) then min bs ((some l).getD 0) else bs) =
        min bs (l - 0) := by
      simp [limTruthy, hl]
    simp only [get_hbase_data_batch, hdb, hcl]
    have h := scanLoop_limit_inv store t bs l hl (store.length + 1) s 0 hl
    exact ⟨fun i r hr => by simpa using h.1 i r hr, by simpa using h.2⟩

/-- C3 (witness): `batch_size = 2`, `limit = 3` over three rows — the second
round requests `min(2, 3-2) = 1` and the total stays within the limit. -/
theorem claim_C3_witness :
    (Round.mk (some [50]) 1 [[50]]).requested =
      min 2 (3 - rowsBefore (get_hbase_data_batch [[48], [49], [50]]
        none none none 2 (some 3)).1 1) ∧
    totalRows (get_hbase_data_batch [[48], [49], [50]] none none none 2 (some 3)).1 ≤ 3 :=
  ⟨(claim_C3_limit_sizes [[48], [49], [50]] none none none 2 3 (by decide)).1 1
      (Round.mk (some [50]) 1 [[50]]) rfl,
   (claim_C3_limit_sizes [[48], [49], [50]] none none none 2 3 (by decide)).2⟩

/-- C6: a truthy `row_prefix` overrides the caller bounds with
`row_start := prefix` and `row_stop := prefix` with its final character's
code point incremented by one. -/
theorem claim_C6_prefix_bounds (rs rst : Option HKey) (p : HKey)
    (hne : p ≠ []) (hc : p.getLastD 0 + 1 < 1114112) :
    deriveBounds rs rst (some p) =
      some (some p, some (p.dropLast ++ [p.getLastD 0 + 1])) := by
  simp only [deriveBounds, if_neg hne, incrKey_eq p hne hc]

/-- C6 (witness): `row_prefix = "user:9"` gives `row_start = "user:9"`,
`row_stop = "user::"`; the range contains `"user:9abc"` and not
`"user:a"`. -/
theorem claim_C6_witness :
    deriveBounds none none (some [117, 115, 101, 114, 58, 57]) =
      some (some [117, 115, 101, 114, 58, 57], some [117, 115, 101, 114, 58, 58]) ∧
    inRange (some [117, 115, 101, 114, 58, 57]) (some [117, 115, 101, 114, 58, 58])
      [117, 115, 101, 114, 58, 57, 97, 98, 99] = true ∧
    inRange (some [117, 115, 101, 114, 58, 57]) (some [117, 115, 101, 114, 58, 58])
      [117, 115, 101, 114, 58, 97] = false :=
  ⟨claim_C6_prefix_bounds none none [117, 115, 101, 114, 58, 57] (by decide) (by decide),
   by decide, by decide⟩

/-- C10: a `limit` of 0 is falsy, so it is treated exactly like no limit at
all — the scan runs unbounded instead of returning zero rows. -/
theorem claim_C10_zero_limit (store : List HKey) (rs rst rp : Option HKey) (bs : Nat) :
    get_hbase_data_batch store rs rst rp bs (some 0) =
      get_hbase_data_batch store rs rst rp bs none := by
  cases hdb : deriveBounds rs rst rp with
  | none => simp [get_hbase_data_batch, hdb]
  | some b =>
    rcases b with ⟨s, t⟩
    simp only [get_hbase_data_batch, hdb]
    have h0 : (if limTruthy (some 0) then min bs ((some 0).getD 0) else bs) = bs := rfl
    have hn : (if limTruthy none then min bs (Option.getD none 0) else bs) = bs := rfl
    rw [h0, hn]
    exact scanLoop_zero_limit store t bs (store.length + 1) s 0 bs

/-- C8 (counterexample): termination is NOT always in one of the three
normal states.  With a store whose last scanned key ends in the maximal code
point `0x10FFFF` (= 1114111), the advancement step's `chr(ord(key[-1]) + 1)`
raises a `ValueError`, so the run ends with a character error instead. -/
theorem claim_C8_counterexample :
    (get_hbase_data_batch [[48], [1114111]] none none none 2 none).2 =
      TermState.charError := by
  decide

/-- C8 (amended): for every store and bound/prefix/batch-size/limit
combination in which the final-character increment is defined for every store
key and for the given prefix (keys nonempty, last code point below
`0x10FFFF`), the generator terminates in one of exactly three normal states —
empty-round exhaustion, single-row terminal batch, or limit reached — after
at most `|store| + 1` batches. -/
theorem claim_C8_terminates (store : List HKey) (rs rst rp : Option HKey)
    (bs : Nat) (limit : Option Nat)
    (hkeys : ∀ k ∈ store, ∃ q, incrKey k = some q)
    (hpre : ∀ p, rp = some p → p = [] ∨ ∃ q, incrKey p = some q) :
    ((get_hbase_data_batch store rs rst rp bs limit).2 = TermState.exhausted ∨
     (get_hbase_data_batch store rs rst rp bs limit).2 = TermState.singleRow ∨
     (get_hbase_data_batch store rs rst rp bs limit).2 = TermState.limitReached) ∧
    ((get_hbase_data_batch store rs rst rp bs limit).1).length ≤ store.length + 1 := by
  cases hdb : deriveBounds rs rst rp with
  | none =>
    exfalso
    cases rp with
    | none => simp [deriveBounds] at hdb
    | some p =>
      rcases hpre p rfl with hnil | ⟨q, hq⟩
      · simp [deriveBounds, hnil] at hdb
      · by_cases hpe : p = []
        · simp [deriveBounds, hpe] at hdb
        · simp [deriveBounds, hpe, hq] at hdb
  | some b =>
    rcases b with ⟨s, t⟩
    simp only [get_hbase_data_batch, hdb]
    have hmeas : (store.filter (fun k => inRange s t k)).length < store.length + 1 := by
      have := List.length_filter_le (fun k => inRange s t k) store
      omega
    have h := scanLoop_normal store t bs limit hkeys (store.length + 1) s 0
      (if limTruthy limit then min bs (limit.getD 0) else bs) hmeas
    refine ⟨h.1, ?_⟩
    have := h.2
    omega

/-- C8 (witness): a two-row store with ordinary keys exhausts normally in at
most three batches. -/
theorem claim_C8_witness :
    ((get_hbase_data_batch [[107, 49], [107, 50]] none none none 5 none).2 =
        TermState.exhausted ∨
     (get_hbase_data_batch [[107, 49], [107, 50]] none none none 5 none).2 =
        TermState.singleRow ∨
     (get_hbase_data_batch [[107, 49], [107, 50]] none none none 5 none).2 =
        TermState.limitReached) ∧
    ((get_hbase_data_batch [[107, 49], [107, 50]] none none none 5 none).1).length ≤
      2 + 1 := by
  have h := claim_C8_terminates [[107, 49], [107, 50]] none none none 5 none
    (by
      intro k hk
      simp only [List.mem_cons, List.not_mem_nil, or_false] at hk
      rcases hk with rfl | rfl
      · exact ⟨[107, 50], rfl⟩
      · exact ⟨[107, 51], rfl⟩)
    (fun p hp => absurd hp (by simp))
  exact h
